import Mathlib

/-!
# Verification of the tile-based Gaussian rasterizer orchestration layer

Shallow embedding of `src/cuda_rasterizer/rasterizer_impl.cu`: the packed
arena allocator, the MSB helper used to bound the radix sort width, the
instance expansion kernel `duplicateWithKeys`, the tile range resolver
`identifyTileRanges`, and the forward/backward orchestrators.

Machine integers are modelled as `Nat` with explicit `% 2 ^ w` where the
C code performs 32-bit arithmetic.  Device arrays are modelled as functions
`Nat → _` (contents) together with explicit write lists; kernel grids whose
threads write disjoint cells are modelled as sequential folds over the
thread index.  Parts of the repository that are not under `src/`
(`auxiliary.h`, `rasterizer_impl.h`, the two numerical CUDA stages) are
modelled from the specification and marked as such in their doc comments.
-/

namespace GaussRaster

/-! ## getHigherMsb (rasterizer_impl.cu lines 35-50)

The C `while (step > 1)` loop starts with `msb = 16, step = 16` and runs
exactly four iterations (step becomes 8, 4, 2, 1); it is unrolled here. -/

def getHigherMsb (n : Nat) : Nat :=
  let msb1 := if n >>> 16 ≠ 0 then 16 + 8 else 16 - 8
  let msb2 := if n >>> msb1 ≠ 0 then msb1 + 4 else msb1 - 4
  let msb3 := if n >>> msb2 ≠ 0 then msb2 + 2 else msb2 - 2
  let msb4 := if n >>> msb3 ≠ 0 then msb3 + 1 else msb3 - 1
  if n >>> msb4 ≠ 0 then msb4 + 1 else msb4

/-! ## Packed arena allocator (C6, C10)

`GeometryState/ImageState/BinningState::fromChunk` (lines 165-204) carve
typed sub-buffers out of a chunk via `obtain`. -/

/-- One `obtain` call: an element byte size, an element count and a byte
alignment.  The element sizes are those of the state-struct field types
declared in `rasterizer_impl.h`. -/
structure Reservation where
  elemBytes : Nat
  count : Nat
  align : Nat
  deriving Repr, DecidableEq

/-- Modelled from the spec: `obtain` (`rasterizer_impl.h`, not under
`src/`) aligns the running cursor up to the requested alignment.  -/
def alignUp (c a : Nat) : Nat := ((c + a - 1) / a) * a

/-- Modelled from the spec: one `obtain` call advances the cursor past an
aligned sub-buffer; returns the sub-buffer's start and the new cursor. -/
def obtainStep (c : Nat) (r : Reservation) : Nat × Nat :=
  let p := alignUp c r.align
  (p, p + r.elemBytes * r.count)

/-- Running `fromChunk` from cursor `c0`: the list of per-field start
offsets and the final cursor.  With `c0 = 0` this is the dry-run sizing
pass (null chunk pointer); with `c0 = B` it is the real carve over a chunk
allocated at address `B`. -/
def carve (c0 : Nat) : List Reservation → List Nat × Nat
  | [] => ([], c0)
  | r :: rs =>
    let s := obtainStep c0 r
    let rest := carve s.2 rs
    (s.1 :: rest.1, rest.2)

/-- `GeometryState::fromChunk` (lines 165-180): depths (float), clamped
(3P bool), internal_radii (int), means2D (float2), cov3D (6P float),
conic_opacity (float4), rgb (3P float), tiles_touched (uint32_t), the
cub scan scratch (`scan_size` bytes, a cub size query), point_offsets
(uint32_t).  All alignments are 128. -/
def geometryReservations (P scanSize : Nat) : List Reservation :=
  [⟨4, P, 128⟩, ⟨1, P * 3, 128⟩, ⟨4, P, 128⟩, ⟨8, P, 128⟩, ⟨4, P * 6, 128⟩,
   ⟨16, P, 128⟩, ⟨4, P * 3, 128⟩, ⟨4, P, 128⟩, ⟨1, scanSize, 128⟩, ⟨4, P, 128⟩]

/-- `ImageState::fromChunk` (lines 182-189): accum_alpha (float),
n_contrib (uint32_t), ranges (uint2), all with count `N`. -/
def imageReservations (N : Nat) : List Reservation :=
  [⟨4, N, 128⟩, ⟨4, N, 128⟩, ⟨8, N, 128⟩]

/-- `BinningState::fromChunk` (lines 191-204): point_list (uint32_t),
point_list_unsorted, point_list_keys (uint64_t), point_list_keys_unsorted,
and the cub sort scratch (`sorting_size` bytes, a cub size query). -/
def binningReservations (R sortSize : Nat) : List Reservation :=
  [⟨4, R, 128⟩, ⟨4, R, 128⟩, ⟨8, R, 128⟩, ⟨8, R, 128⟩, ⟨1, sortSize, 128⟩]

/-! ## Keys and instance expansion (duplicateWithKeys, lines 70-111) -/

/-- High 32 bits of a 64-bit instance key: the tile index. -/
def tileOf (key : Nat) : Nat := key >>> 32

/-- Low 32 bits of a 64-bit instance key: the depth bit pattern. -/
def depthBitsOf (key : Nat) : Nat := key % 2 ^ 32

/-- Modelled from the spec: `getRect` (`auxiliary.h`, not under `src/`):
the integer tile rectangle overlapped by the screen bounding box
(mean ± radius), clamped to the grid, with 16×16-pixel tiles.  Result is
((xmin, ymin), (xmax, ymax)) with half-open bounds. -/
def getRect (p : ℚ × ℚ) (maxRadius : Int) (grid : Nat × Nat) :
    (Nat × Nat) × (Nat × Nat) :=
  ((min (grid.1 : Int) (max 0 ⌊(p.1 - maxRadius) / 16⌋) |>.toNat,
    min (grid.2 : Int) (max 0 ⌊(p.2 - maxRadius) / 16⌋) |>.toNat),
   (min (grid.1 : Int) (max 0 ⌊(p.1 + maxRadius + 15) / 16⌋) |>.toNat,
    min (grid.2 : Int) (max 0 ⌊(p.2 + maxRadius + 15) / 16⌋) |>.toNat))

/-- The tiles of a rectangle in loop order of `duplicateWithKeys`
(y outer, x inner), as (x, y) pairs. -/
def rectTiles (rect : (Nat × Nat) × (Nat × Nat)) : List (Nat × Nat) :=
  (List.range (rect.2.2 - rect.1.2)).flatMap fun dy =>
    (List.range (rect.2.1 - rect.1.1)).map fun dx =>
      (rect.1.1 + dx, rect.1.2 + dy)

/-- The 64-bit key written for tile (x, y): `uint64_t key = y * grid.x + x`
(32-bit unsigned arithmetic), `key <<= 32`, `key |= *((uint32_t*)&depth)`. -/
def packKey (gridX : Nat) (xy : Nat × Nat) (depthBits : Nat) : Nat :=
  (((xy.2 * gridX + xy.1) % 2 ^ 32) <<< 32) ||| (depthBits % 2 ^ 32)

/-- One thread of `duplicateWithKeys` (lines 70-111): the ordered list of
(position, key, value) writes primitive `i` performs into the unsorted
key/value arrays.  `off` starts at `offsets[i-1]` (0 for i = 0) and is
incremented once per overlapped tile; primitives with radius ≤ 0 write
nothing. -/
def dupWrites (pts : Nat → ℚ × ℚ) (depths : Nat → Nat) (offsets : Nat → Nat)
    (radii : Nat → Int) (grid : Nat × Nat) (i : Nat) : List (Nat × Nat × Nat) :=
  if 0 < radii i then
    let off0 := if i = 0 then 0 else offsets (i - 1)
    let rect := getRect (pts i) (radii i) grid
    ((List.range (rect.2.2 - rect.1.2)).foldl (fun st dy =>
        (List.range (rect.2.1 - rect.1.1)).foldl (fun st2 dx =>
          let key := packKey grid.1 (rect.1.1 + dx, rect.1.2 + dy) (depths i)
          (st2.1 + 1, st2.2 ++ [(st2.1, key, i)])) st)
      ((off0, []) : Nat × List (Nat × Nat × Nat))).2
  else []

/-- Applying a list of (position, key, value) writes to the key/value
array pair, modelled as a function from position to (key, value).  `a0` is
the arbitrary initial (uninitialized) contents of the carved buffers. -/
def applyWrites (a0 : Nat → Nat × Nat) (ws : List (Nat × Nat × Nat)) :
    Nat → Nat × Nat :=
  ws.foldl (fun a w => fun p => if p = w.1 then (w.2.1, w.2.2) else a p) a0

/-! ## Inclusive prefix sum (cub::DeviceScan::InclusiveSum on uint32_t) -/

/-- `cub::DeviceScan::InclusiveSum` over `uint32_t` counts, with 32-bit
wrap-around, accumulator-passing form. -/
def inclusiveSumFrom (acc : Nat) : List Nat → List Nat
  | [] => []
  | x :: xs =>
    let a := (acc + x) % 2 ^ 32
    a :: inclusiveSumFrom a xs

/-- Inclusive prefix sum of the tile-touch counts (line 290). -/
def inclusiveSum (l : List Nat) : List Nat := inclusiveSumFrom 0 l

/-- The readback of `point_offsets + P - 1` (line 294), on an array of
`l.length` carved elements.  The C index `P - 1` is `int` arithmetic, so it
is modelled on `Int`; the read succeeds only when it is in bounds. -/
def readOffset (l : List Nat) (P : Nat) : Option Nat :=
  let idx : Int := (P : Int) - 1
  if 0 ≤ idx ∧ idx < (l.length : Int) then some (l.getD idx.toNat 0) else none

/-! ## Radix sort (cub::DeviceRadixSort::SortPairs, lines 316-321)

Keys are sorted ascending comparing only the low `b = 32 + bit`
significant bits (`begin_bit = 0`, `end_bit = 32 + bit`). -/

/-- The boolean comparison the `b`-bit radix sort realizes. -/
def keyLE (b : Nat) (x y : Nat × Nat) : Bool :=
  decide (x.1 % 2 ^ b ≤ y.1 % 2 ^ b)

/-- Sorting the (key, value) pairs by the low `b` bits of the key. -/
def sortPairs (b : Nat) (l : List (Nat × Nat)) : List (Nat × Nat) :=
  l.mergeSort (keyLE b)

/-! ## Tile range resolver (identifyTileRanges, lines 116-147)

Each thread writes `.x`/`.y` fields of the `uint2` range table; distinct
threads write distinct fields (one `.x` per first instance of a tile, one
`.y` per one-past-last instance), so the kernel is modelled as a
sequential fold over the instance index.  The locals `numTilesX`, `count`,
`row`, `col` only feed a commented-out printf and are omitted. -/

/-- Write the `.x` (start) field of `ranges[t]`. -/
def setStart (r : Nat → Nat × Nat) (t v : Nat) : Nat → Nat × Nat :=
  fun u => if u = t then (v, (r t).2) else r u

/-- Write the `.y` (end) field of `ranges[t]`. -/
def setEnd (r : Nat → Nat × Nat) (t v : Nat) : Nat → Nat × Nat :=
  fun u => if u = t then ((r t).1, v) else r u

/-- The body of one `identifyTileRanges` thread at instance index `idx`,
without the final `idx == L - 1` write. -/
def rangeStep (keys : Nat → Nat) (r : Nat → Nat × Nat) (idx : Nat) :
    Nat → Nat × Nat :=
  let currtile := tileOf (keys idx)
  if idx = 0 then setStart r currtile 0
  else
    let prevtile := tileOf (keys (idx - 1))
    if currtile ≠ prevtile then setStart (setEnd r prevtile idx) currtile idx
    else r

/-- The full `identifyTileRanges` pass over a sorted key list of length
`L`, starting from table contents `r0`. -/
def identifyTileRanges (L : Nat) (keys : Nat → Nat) (r0 : Nat → Nat × Nat) :
    Nat → Nat × Nat :=
  (List.range L).foldl
    (fun r idx =>
      let r1 := rangeStep keys r idx
      if idx = L - 1 then setEnd r1 (tileOf (keys idx)) L else r1)
    r0

/-! ## Per-pixel blend stage (FORWARD::render, external) -/

/-- Modelled from the spec: `FORWARD::render` (`forward.cu`, not under
`src/`): each pixel walks its tile's sorted instance range `[start, end)`
front to back, accumulating `alpha`-weighted colors and attenuating the
remaining transmittance `T`; the final color is the accumulation plus
`T * background`.  `alphaAt prim pix` and `featOf prim ch` are the
external numeric per-pixel alpha and per-primitive feature. -/
def renderPixel (alphaAt : Nat → ℚ) (featOf : Nat → ℚ) (pointList : Nat → Nat)
    (range : Nat × Nat) (bg : ℚ) : ℚ :=
  let fin := (List.range (range.2 - range.1)).foldl
    (fun (st : ℚ × ℚ) d =>
      let prim := pointList (range.1 + d)
      (st.1 + st.2 * alphaAt prim * featOf prim, st.2 * (1 - alphaAt prim)))
    (0, 1)
  fin.1 + fin.2 * bg

/-- The significant-bit count of the radix sort (lines 313-321):
`int bit = getHigherMsb(tile_grid.x * tile_grid.y)` (32-bit unsigned
product) and `SortPairs(..., 0, 32 + bit)`. -/
def sortBits (grid : Nat × Nat) : Nat :=
  32 + getHigherMsb ((grid.1 * grid.2) % 2 ^ 32)

/-! ## Forward orchestrator (lines 211-520) -/

/-- The host-visible steps of `forward`/`backward`: caller-arena sizing
callbacks (`alloc…`), state-view reconstruction from an existing buffer
(`carve…`), and dispatched device work (`dev…`). -/
inductive Ev where
  | allocGeom | allocImage | allocBinning
  | carveGeom | carveBinning | carveImage
  | devPreprocess | devScan | devMemcpyR | devDuplicate | devSort
  | devMemset | devIdentify | devRender
  | devRenderBwd | devPreprocessBwd
  deriving Repr, DecidableEq

/-- Device work (kernel launches, cub calls, memcpy/memset), as opposed to
host-side sizing/allocation and view reconstruction. -/
def Ev.isDevice : Ev → Bool
  | .allocGeom | .allocImage | .allocBinning
  | .carveGeom | .carveBinning | .carveImage => false
  | _ => true

/-- Inputs of one `forward` call.  The outputs of the external
`FORWARD::preprocess` projection stage (`depthBits`, `means2D`, `radii`,
`tilesTouched`, `rgb`, `alphaAt`) are inputs of the orchestration model,
and `initKV` is the arbitrary uninitialized contents of the carved binning
buffers.  `numChannels` is the compile-time `NUM_CHANNELS`. -/
structure FwdParams where
  P : Nat
  width : Nat
  height : Nat
  numChannels : Nat
  colorsPrecomp : Option (Nat → Nat → ℚ)
  background : Nat → ℚ
  depthBits : Nat → Nat
  means2D : Nat → ℚ × ℚ
  radii : Nat → Int
  tilesTouched : Nat → Nat
  rgb : Nat → Nat → ℚ
  alphaAt : Nat → Nat × Nat → ℚ
  initKV : Nat → Nat × Nat

/-- The tile grid `((width + 15) / 16, (height + 15) / 16)` (line 247). -/
def FwdParams.grid (q : FwdParams) : Nat × Nat :=
  ((q.width + 16 - 1) / 16, (q.height + 16 - 1) / 16)

/-- The per-primitive feature used by the blend stage: precomputed colors
if supplied, else the projection stage's `rgb` (line 337). -/
def FwdParams.feature (q : FwdParams) : Nat → Nat → ℚ :=
  match q.colorsPrecomp with
  | some f => f
  | none => q.rgb

/-- The tile containing pixel `(x, y)`. -/
def pixTile (gridX : Nat) (pix : Nat × Nat) : Nat :=
  (pix.2 / 16) * gridX + pix.1 / 16

/-- Results of a completed `forward` call. -/
structure FwdOut where
  R : Nat
  offsets : List Nat
  unsorted : List (Nat × Nat)
  sorted : List (Nat × Nat)
  ranges : Nat → Nat × Nat
  color : Nat × Nat → Nat → ℚ

/-- `CudaRasterizer::Rasterizer::forward` (lines 211-520): size the
geometry and image arenas, check the channel configuration, run the
projection stage, prefix-sum the touch counts, read back the instance
count R, size the binning arena, expand instances, sort by the low
`32 + getHigherMsb(grid.x * grid.y)` key bits, zero and resolve tile
ranges (skipped when R = 0), and blend.  Returns the host event trace and
either a configuration/readback error or the outputs. -/
def forwardRun (q : FwdParams) : List Ev × Except String FwdOut :=
  let evs0 := [Ev.allocGeom, Ev.allocImage]
  if q.numChannels ≠ 3 ∧ q.colorsPrecomp.isNone then
    (evs0, .error "For non-RGB, provide precomputed Gaussian colors!")
  else
    let counts := (List.range q.P).map q.tilesTouched
    let offs := inclusiveSum counts
    match readOffset offs q.P with
    | none => (evs0 ++ [.devPreprocess, .devScan],
               .error "point_offsets readback out of bounds")
    | some R =>
      let g := q.grid
      let offFn := fun j => offs.getD j 0
      let writes := (List.range q.P).flatMap
        (dupWrites q.means2D q.depthBits offFn q.radii g)
      let kvArr := applyWrites q.initKV writes
      let unsorted := (List.range R).map kvArr
      let sorted := sortPairs (sortBits g) unsorted
      let sortedKey := fun j => ((sorted.getD j (0, 0)).1)
      let ranges :=
        if 0 < R then identifyTileRanges R sortedKey (fun _ => (0, 0))
        else fun _ => (0, 0)
      let pointList := fun j => (sorted.getD j (0, 0)).2
      let color := fun pix ch =>
        renderPixel (fun prim => q.alphaAt prim pix) (fun prim => q.feature prim ch)
          pointList (ranges (pixTile g.1 pix)) (q.background ch)
      (evs0 ++ [.devPreprocess, .devScan, .devMemcpyR, .allocBinning,
                .devDuplicate, .devSort, .devMemset] ++
         (if 0 < R then [.devIdentify] else []) ++ [.devRender],
       .ok ⟨R, offs, unsorted, sorted, ranges, color⟩)

/-! ## Backward orchestrator (lines 524-618) -/

/-- The geometry-state view backward reconstructs (fields it reads). -/
structure GeomView where
  rgb : Nat → Nat → ℚ
  cov3D : Nat → ℚ
  clamped : Nat → Bool
  means2D : Nat → ℚ × ℚ
  conicOpacity : Nat → ℚ × ℚ × ℚ × ℚ
  internalRadii : Nat → Int

/-- The binning-state view: sorted values, sorted keys, and the unsorted
scratch arrays that `backward` never reads. -/
structure BinningView where
  pointList : Nat → Nat
  pointListKeys : Nat → Nat
  pointListUnsorted : Nat → Nat
  pointListKeysUnsorted : Nat → Nat

/-- The image-state view. -/
structure ImgView where
  accumAlpha : Nat × Nat → ℚ
  nContrib : Nat × Nat → Nat
  ranges : Nat → Nat × Nat

/-- The non-buffer inputs of `backward`: camera/primitive parameters and
the per-pixel loss gradients. -/
structure BwdParams where
  P : Nat
  R : Nat
  width : Nat
  height : Nat
  colorsPrecomp : Option (Nat → Nat → ℚ)
  cov3Dprecomp : Option (Nat → ℚ)
  radii : Option (Nat → Int)
  dLdpix : Nat × Nat → Nat → ℚ

/-- Per-primitive gradients; `screen` stands for the screen-space
gradients (2D mean, conic, opacity, color) and `threeD` for the 3D
parameter gradients (mean, covariance, SH, scale, rotation). -/
structure Grads (σ τ : Type) where
  screen : σ
  threeD : τ

/-- `CudaRasterizer::Rasterizer::backward` (lines 524-618): reconstruct
the three state views from the saved buffers, then invoke the external
`BACKWARD::render` (`renderB`) on the saved ranges, sorted point list and
per-primitive screen attributes, and `BACKWARD::preprocess` (`preprocB`)
on its result.  The two external stages are modelled from the spec as
given pure functions; no scan, no expansion and no sort is performed, and
the binning buffer is read only through `pointList`. -/
def backwardRun {σ τ : Type}
    (renderB : (Nat → Nat × Nat) → (Nat → Nat) → (Nat → Nat → ℚ) →
      (Nat → ℚ × ℚ) → (Nat → ℚ × ℚ × ℚ × ℚ) → (Nat × Nat → ℚ) →
      (Nat × Nat → Nat) → (Nat × Nat → Nat → ℚ) → σ)
    (preprocB : σ → (Nat → ℚ) → (Nat → Int) → (Nat → Bool) → τ)
    (geom : GeomView) (binning : BinningView) (img : ImgView)
    (q : BwdParams) : Grads σ τ :=
  let colorPtr := match q.colorsPrecomp with
    | some f => f
    | none => geom.rgb
  let radiiPtr := match q.radii with
    | some r => r
    | none => geom.internalRadii
  let screen := renderB img.ranges binning.pointList colorPtr geom.means2D
    geom.conicOpacity img.accumAlpha img.nContrib q.dLdpix
  let cov3DPtr := match q.cov3Dprecomp with
    | some c => c
    | none => geom.cov3D
  let threeD := preprocB screen cov3DPtr radiiPtr geom.clamped
  ⟨screen, threeD⟩

/-- The host event trace of one `backward` call. -/
def backwardEvents : List Ev :=
  [.carveGeom, .carveBinning, .carveImage, .devRenderBwd, .devPreprocessBwd]

/-! ## Lemmas: getHigherMsb computes the bit length -/

lemma shiftRight_eq_zero_iff {n k : Nat} : n >>> k = 0 ↔ n < 2 ^ k := by
  rw [Nat.shiftRight_eq_div_pow]
  constructor
  · intro h
    by_contra hlt
    push_neg at hlt
    have := (Nat.one_le_div_iff (Nat.pos_pow_of_pos k (by norm_num))).mpr hlt
    omega
  · exact Nat.div_eq_of_lt

lemma size_eq_of {n m : Nat} (h0 : 0 < m) (h1 : 2 ^ (m - 1) ≤ n)
    (h2 : n < 2 ^ m) : Nat.size n = m := by
  have hle : Nat.size n ≤ m := Nat.size_le.mpr h2
  have hlt : m - 1 < Nat.size n := Nat.lt_size.mpr h1
  omega

/-- The unrolled binary search of `getHigherMsb` computes the bit length
(`Nat.size`) of its argument, for arguments in `uint32_t` range. -/
lemma getHigherMsb_eq_size {n : Nat} (h1 : 1 ≤ n) (h2 : n < 2 ^ 32) :
    getHigherMsb n = Nat.size n := by
  unfold getHigherMsb
  simp only [ne_eq, shiftRight_eq_zero_iff, not_lt]
  split_ifs <;>
    · symm
      norm_num at *
      exact size_eq_of (by norm_num) (by omega) (by omega)

lemma size_eq_log2_succ {n : Nat} (h : 1 ≤ n) : Nat.size n = Nat.log2 n + 1 := by
  have hne : n ≠ 0 := by omega
  have hlow : 2 ^ Nat.log 2 n ≤ n := Nat.pow_log_le_self 2 hne
  have hhigh : n < 2 ^ (Nat.log 2 n + 1) := Nat.lt_pow_succ_log_self (by norm_num) n
  rw [Nat.log2_eq_log_two]
  exact size_eq_of (by omega) (by simpa using hlow) hhigh

/-- C5, counterexample: on a 1×1 tile grid the code passes
`32 + getHigherMsb 1 = 33` significant bits to the radix sort, not
`32 + ⌊log2 1⌋ = 32` as the claim states. -/
theorem c5_counterexample : ¬ sortBits (1, 1) = 32 + Nat.log2 (1 * 1) := by
  have h : sortBits (1, 1) = 33 := rfl
  have hl : Nat.log2 (1 * 1) = 0 := by
    rw [Nat.log2_eq_log_two]
    simp
  omega

/-- C5 (amended): the radix sort over the 64-bit instance keys sorts
exactly `32 + bit` significant bits where `bit = getHigherMsb(grid.x *
grid.y)` is the bit length of the product: one more than the position of
its highest set bit, i.e. `32 + (⌊log2 (grid.x * grid.y)⌋ + 1)`. -/
theorem c5_sort_bit_width (grid : Nat × Nat) (h1 : 1 ≤ grid.1 * grid.2)
    (h2 : grid.1 * grid.2 < 2 ^ 32) :
    sortBits grid = 32 + (Nat.log2 (grid.1 * grid.2) + 1) := by
  unfold sortBits
  rw [Nat.mod_eq_of_lt h2, getHigherMsb_eq_size h1 h2, size_eq_log2_succ h1]

/-- C5, witness: a concrete 5×7-tile grid, where the sort covers
`32 + 6` bits. -/
theorem c5_sort_bit_width_witness :
    1 ≤ 5 * 7 ∧ 5 * 7 < 2 ^ 32 ∧ sortBits (5, 7) = 32 + (Nat.log2 (5 * 7) + 1) :=
  ⟨by decide, by decide, c5_sort_bit_width (5, 7) (by decide) (by decide)⟩

/-! ## Lemmas: arena carving (C6) -/

lemma alignUp_add {B c a : Nat} (ha : 0 < a) (hB : a ∣ B) :
    alignUp (B + c) a = B + alignUp c a := by
  obtain ⟨k, rfl⟩ := hB
  unfold alignUp
  have h1 : a * k + c + a - 1 = (c + a - 1) + a * k := by omega
  rw [h1, Nat.add_mul_div_left _ _ ha, Nat.add_mul]
  ring

lemma carve_shift (B : Nat) (rs : List Reservation) (c : Nat)
    (h : ∀ r ∈ rs, 0 < r.align ∧ r.align ∣ B) :
    carve (B + c) rs = ((carve c rs).1.map (B + ·), B + (carve c rs).2) := by
  induction rs generalizing c with
  | nil => simp [carve]
  | cons r rs ih =>
    have hr := h r (List.mem_cons_self r rs)
    have hrs : ∀ x ∈ rs, 0 < x.align ∧ x.align ∣ B :=
      fun x hx => h x (List.mem_cons_of_mem r hx)
    simp only [carve, obtainStep, alignUp_add hr.1 hr.2, Nat.add_assoc]
    rw [ih _ hrs]
    simp

lemma carve_shift_128 (B : Nat) (hB : 128 ∣ B) (rs : List Reservation)
    (h : ∀ r ∈ rs, r.align = 128) :
    (carve B rs).2 - B = (carve 0 rs).2 ∧
      (carve B rs).1 = (carve 0 rs).1.map (B + ·) := by
  have hs := carve_shift B rs 0
    (fun r hr => ⟨by rw [h r hr]; norm_num, by rw [h r hr]; exact hB⟩)
  rw [Nat.add_zero] at hs
  rw [hs]
  exact ⟨by omega, rfl⟩

lemma geometryReservations_align (P scanSize : Nat) :
    ∀ r ∈ geometryReservations P scanSize, r.align = 128 := by
  intro r hr
  simp only [geometryReservations, List.mem_cons, List.not_mem_nil, or_false] at hr
  rcases hr with rfl | rfl | rfl | rfl | rfl | rfl | rfl | rfl | rfl | rfl <;> rfl

lemma imageReservations_align (N : Nat) :
    ∀ r ∈ imageReservations N, r.align = 128 := by
  intro r hr
  simp only [imageReservations, List.mem_cons, List.not_mem_nil, or_false] at hr
  rcases hr with rfl | rfl | rfl <;> rfl

lemma binningReservations_align (R sortSize : Nat) :
    ∀ r ∈ binningReservations R sortSize, r.align = 128 := by
  intro r hr
  simp only [binningReservations, List.mem_cons, List.not_mem_nil, or_false] at hr
  rcases hr with rfl | rfl | rfl | rfl | rfl <;> rfl

/-- C6: for each of the three state types and every element count, the
dry-run sizing pass of `fromChunk` (cursor 0, null chunk pointer)
computes exactly the byte count the real carve consumes from a
128-byte-aligned chunk base `B`, and every field lands at the same
offset from the base as in the dry run. -/
theorem c6_arena_dry_run_matches_carve (B P scanSize N R sortSize : Nat)
    (hB : 128 ∣ B) :
    ((carve B (geometryReservations P scanSize)).2 - B
        = (carve 0 (geometryReservations P scanSize)).2
      ∧ (carve B (geometryReservations P scanSize)).1
        = (carve 0 (geometryReservations P scanSize)).1.map (B + ·))
    ∧ ((carve B (imageReservations N)).2 - B = (carve 0 (imageReservations N)).2
      ∧ (carve B (imageReservations N)).1
        = (carve 0 (imageReservations N)).1.map (B + ·))
    ∧ ((carve B (binningReservations R sortSize)).2 - B
        = (carve 0 (binningReservations R sortSize)).2
      ∧ (carve B (binningReservations R sortSize)).1
        = (carve 0 (binningReservations R sortSize)).1.map (B + ·)) :=
  ⟨carve_shift_128 B hB _ (geometryReservations_align P scanSize),
   carve_shift_128 B hB _ (imageReservations_align N),
   carve_shift_128 B hB _ (binningReservations_align R sortSize)⟩

/-- C6, witness: a concrete 128-aligned chunk base and element counts. -/
theorem c6_arena_dry_run_matches_carve_witness :
    (128 ∣ 256) ∧
    ((carve 256 (geometryReservations 3 5)).2 - 256
        = (carve 0 (geometryReservations 3 5)).2
      ∧ (carve 256 (geometryReservations 3 5)).1
        = (carve 0 (geometryReservations 3 5)).1.map (256 + ·))
    ∧ ((carve 256 (imageReservations 2)).2 - 256 = (carve 0 (imageReservations 2)).2
      ∧ (carve 256 (imageReservations 2)).1
        = (carve 0 (imageReservations 2)).1.map (256 + ·))
    ∧ ((carve 256 (binningReservations 4 7)).2 - 256
        = (carve 0 (binningReservations 4 7)).2
      ∧ (carve 256 (binningReservations 4 7)).1
        = (carve 0 (binningReservations 4 7)).1.map (256 + ·)) :=
  ⟨⟨2, rfl⟩, c6_arena_dry_run_matches_carve 256 3 5 2 4 7 ⟨2, rfl⟩⟩

/-- C10: `forward` reads the instance count R back from
`point_offsets + P - 1`, where `point_offsets` is the final geometry
reservation, carved with exactly `P` elements; the `int`-indexed access
is in bounds iff `P ≥ 1`, and out of bounds when `P = 0` (index −1), so
`P ≥ 1` is a precondition for the readback to be safe. -/
theorem c10_readback_bounds (P scanSize : Nat) (l : List Nat)
    (hl : l.length = P) :
    ((geometryReservations P scanSize).getLast?.map Reservation.count = some P)
    ∧ ((readOffset l P).isSome ↔ 1 ≤ P) := by
  refine ⟨rfl, ?_⟩
  unfold readOffset
  dsimp only
  split_ifs with h
  · simp only [Option.isSome_some, true_iff]
    omega
  · simp only [Option.isSome_none, Bool.false_eq_true, false_iff]
    omega

/-- C10, witness: at P = 3 the readback is in bounds; the same theorem at
P = 0 (second conjunct) yields the out-of-bounds case. -/
theorem c10_readback_bounds_witness :
    (((7 : Nat) :: 9 :: 12 :: []).length = 3 ∧
      ((geometryReservations 3 11).getLast?.map Reservation.count = some 3
        ∧ ((readOffset (7 :: 9 :: 12 :: []) 3).isSome ↔ 1 ≤ 3)))
    ∧ (([] : List Nat).length = 0 ∧
      ((geometryReservations 0 11).getLast?.map Reservation.count = some 0
        ∧ ((readOffset ([] : List Nat) 0).isSome ↔ 1 ≤ 0))) :=
  ⟨⟨rfl, c10_readback_bounds 3 11 _ rfl⟩, ⟨rfl, c10_readback_bounds 0 11 _ rfl⟩⟩

/-- A sample single-channel `forward` input with no precomputed colors. -/
def oneChannelParams : FwdParams where
  P := 1
  width := 16
  height := 16
  numChannels := 1
  colorsPrecomp := none
  background := fun _ => 0
  depthBits := fun _ => 0
  means2D := fun _ => (8, 8)
  radii := fun _ => 1
  tilesTouched := fun _ => 1
  rgb := fun _ _ => 0
  alphaAt := fun _ _ => 0
  initKV := fun _ => (0, 0)

/-- C8: if the color channel count is not 3 and no precomputed colors are
supplied, `forward` raises the fatal configuration error, and the host
trace up to that point holds only the two arena-sizing callbacks that
precede the check — no device work has been dispatched. -/
theorem c8_config_error_before_device_work (q : FwdParams)
    (hch : q.numChannels ≠ 3) (hpre : q.colorsPrecomp = none) :
    (forwardRun q).2 = .error "For non-RGB, provide precomputed Gaussian colors!"
    ∧ (forwardRun q).1 = [Ev.allocGeom, Ev.allocImage]
    ∧ ∀ e ∈ (forwardRun q).1, e.isDevice = false := by
  have hcond : q.numChannels ≠ 3 ∧ q.colorsPrecomp.isNone := by
    rw [hpre]
    exact ⟨hch, rfl⟩
  unfold forwardRun
  dsimp only
  rw [if_pos hcond]
  refine ⟨rfl, rfl, ?_⟩
  intro e he
  simp only [List.mem_cons, List.not_mem_nil, or_false] at he
  rcases he with rfl | rfl <;> rfl

/-- C8, witness: a 1-channel call without precomputed colors. -/
theorem c8_config_error_before_device_work_witness :
    (forwardRun oneChannelParams).2
        = .error "For non-RGB, provide precomputed Gaussian colors!"
    ∧ (forwardRun oneChannelParams).1 = [Ev.allocGeom, Ev.allocImage]
    ∧ ∀ e ∈ (forwardRun oneChannelParams).1, e.isDevice = false :=
  c8_config_error_before_device_work oneChannelParams (by decide) rfl

/-! ## Lemmas: inclusive prefix sum (C4) -/

lemma inclusiveSumFrom_length (acc : Nat) (l : List Nat) :
    (inclusiveSumFrom acc l).length = l.length := by
  induction l generalizing acc with
  | nil => rfl
  | cons x xs ih => simp [inclusiveSumFrom, ih]

lemma inclusiveSumFrom_getD (l : List Nat) (acc j : Nat) (hj : j < l.length) :
    (inclusiveSumFrom acc l).getD j 0 = (acc + (l.take (j + 1)).sum) % 2 ^ 32 := by
  induction l generalizing acc j with
  | nil => simp at hj
  | cons x xs ih =>
    cases j with
    | zero => simp [inclusiveSumFrom]
    | succ j =>
      have hj' : j < xs.length := by simpa using hj
      simp only [inclusiveSumFrom, List.getD_cons_succ, List.take_succ_cons,
        List.sum_cons]
      rw [ih _ _ hj', Nat.mod_add_mod]
      ring_nf

lemma take_sum_le (l : List Nat) (k : Nat) : (l.take k).sum ≤ l.sum := by
  have h : (l.take k).sum + (l.drop k).sum = l.sum := by
    rw [← List.sum_append, List.take_append_drop]
  omega

lemma inclusiveSum_getD (l : List Nat) (j : Nat) (hj : j < l.length)
    (hsum : l.sum < 2 ^ 32) :
    (inclusiveSum l).getD j 0 = (l.take (j + 1)).sum := by
  rw [inclusiveSum, inclusiveSumFrom_getD _ _ _ hj, Nat.zero_add]
  exact Nat.mod_eq_of_lt (lt_of_le_of_lt (take_sum_le l (j + 1)) hsum)

lemma readOffset_eq_some {l : List Nat} {P : Nat} (hl : l.length = P)
    (hP : 1 ≤ P) : readOffset l P = some (l.getD (P - 1) 0) := by
  unfold readOffset
  dsimp only
  rw [if_pos (by constructor <;> [omega; (rw [hl]; omega)])]
  congr 1
  have ht : ((P : Int) - 1).toNat = P - 1 := by omega
  rw [ht]

/-- The output `forwardRun` produces on its success path (the same
pipeline, written as a value so that theorems can name it; see
`forwardRun_ok`). -/
def forwardOut (q : FwdParams) : FwdOut :=
  let counts := (List.range q.P).map q.tilesTouched
  let offs := inclusiveSum counts
  let R := offs.getD (q.P - 1) 0
  let g := q.grid
  let offFn := fun j => offs.getD j 0
  let writes := (List.range q.P).flatMap
    (dupWrites q.means2D q.depthBits offFn q.radii g)
  let kvArr := applyWrites q.initKV writes
  let unsorted := (List.range R).map kvArr
  let sorted := sortPairs (sortBits g) unsorted
  let sortedKey := fun j => ((sorted.getD j (0, 0)).1)
  let ranges :=
    if 0 < R then identifyTileRanges R sortedKey (fun _ => (0, 0))
    else fun _ => (0, 0)
  let pointList := fun j => (sorted.getD j (0, 0)).2
  let color := fun pix ch =>
    renderPixel (fun prim => q.alphaAt prim pix) (fun prim => q.feature prim ch)
      pointList (ranges (pixTile g.1 pix)) (q.background ch)
  ⟨R, offs, unsorted, sorted, ranges, color⟩

lemma inclusiveSum_counts_length (q : FwdParams) :
    (inclusiveSum ((List.range q.P).map q.tilesTouched)).length = q.P := by
  simp [inclusiveSum, inclusiveSumFrom_length]

/-- When the channel check passes and `P ≥ 1`, `forwardRun` completes and
returns `forwardOut`. -/
lemma forwardRun_ok (q : FwdParams)
    (hch : ¬(q.numChannels ≠ 3 ∧ q.colorsPrecomp.isNone))
    (hP : 1 ≤ q.P) :
    (forwardRun q).2 = .ok (forwardOut q) := by
  unfold forwardRun forwardOut
  dsimp only
  rw [if_neg hch, readOffset_eq_some (inclusiveSum_counts_length q) hP]

/-- C4: for every `forward` call with `P ≥ 1` primitives (and no 32-bit
overflow of the instance total), the point-offsets array is the inclusive
prefix sum of the tile-touch counts, the R the call returns equals
`point_offsets[P-1]`, and R equals the sum of all tile-touch counts. -/
theorem c4_prefix_sum_total (q : FwdParams)
    (hch : ¬(q.numChannels ≠ 3 ∧ q.colorsPrecomp.isNone))
    (hP : 1 ≤ q.P)
    (hsum : ((List.range q.P).map q.tilesTouched).sum < 2 ^ 32) :
    ∃ out, (forwardRun q).2 = .ok out
      ∧ (∀ j < q.P, out.offsets.getD j 0
          = ((List.range (j + 1)).map q.tilesTouched).sum)
      ∧ out.R = out.offsets.getD (q.P - 1) 0
      ∧ out.R = ((List.range q.P).map q.tilesTouched).sum := by
  refine ⟨forwardOut q, forwardRun_ok q hch hP, ?_, rfl, ?_⟩
  · intro j hj
    have hoff : (forwardOut q).offsets
        = inclusiveSum ((List.range q.P).map q.tilesTouched) := rfl
    rw [hoff, inclusiveSum_getD _ _ (by simpa [inclusiveSum_counts_length] using hj) hsum,
      ← List.map_take, List.take_range, Nat.min_eq_left (by omega)]
  · have hoff : (forwardOut q).R
        = (inclusiveSum ((List.range q.P).map q.tilesTouched)).getD (q.P - 1) 0 := rfl
    rw [hoff, inclusiveSum_getD _ _ (by simp [inclusiveSum_counts_length]; omega) hsum,
      Nat.sub_add_cancel hP, ← List.map_take, List.take_range, Nat.min_self]

/-- A sample 3-channel `forward` input: two primitives in a 16×16 image
(one 1×1 tile grid), touch counts 1 and 2. -/
def rgbParams : FwdParams where
  P := 2
  width := 16
  height := 16
  numChannels := 3
  colorsPrecomp := none
  background := fun _ => 1 / 2
  depthBits := fun i => i
  means2D := fun _ => (8, 8)
  radii := fun _ => 1
  tilesTouched := fun i => i + 1
  rgb := fun _ _ => 1
  alphaAt := fun _ _ => 0
  initKV := fun _ => (0, 0)

/-- C4, witness. -/
theorem c4_prefix_sum_total_witness :
    ∃ out, (forwardRun rgbParams).2 = .ok out
      ∧ (∀ j < rgbParams.P, out.offsets.getD j 0
          = ((List.range (j + 1)).map rgbParams.tilesTouched).sum)
      ∧ out.R = out.offsets.getD (rgbParams.P - 1) 0
      ∧ out.R = ((List.range rgbParams.P).map rgbParams.tilesTouched).sum :=
  c4_prefix_sum_total rgbParams (by decide) (by decide) (by decide)

/-- C7: a forward call that produces zero instances (R = 0) is not an
error: the pipeline completes with `.ok`, the tile-range table stays
entirely at its zero-initialized empty ranges (the resolver launch is
skipped), and every pixel of the output image equals the background
color exactly. -/
theorem c7_zero_instances_background (q : FwdParams)
    (hch : ¬(q.numChannels ≠ 3 ∧ q.colorsPrecomp.isNone))
    (hP : 1 ≤ q.P)
    (hR : (inclusiveSum ((List.range q.P).map q.tilesTouched)).getD (q.P - 1) 0
      = 0) :
    ∃ out, (forwardRun q).2 = .ok out
      ∧ out.R = 0
      ∧ (∀ t, out.ranges t = (0, 0))
      ∧ (∀ pix ch, out.color pix ch = q.background ch) := by
  have hrfl : (forwardOut q).R = 0 := hR
  refine ⟨forwardOut q, forwardRun_ok q hch hP, hrfl, ?_, ?_⟩
  · intro t
    show (forwardOut q).ranges t = (0, 0)
    unfold forwardOut
    dsimp only
    rw [hR]
    simp
  · intro pix ch
    show (forwardOut q).color pix ch = q.background ch
    unfold forwardOut
    dsimp only
    rw [hR]
    simp [renderPixel]

/-- A sample 3-channel `forward` input whose only primitive is culled
(radius 0, touch count 0), so that R = 0. -/
def culledParams : FwdParams where
  P := 1
  width := 32
  height := 16
  numChannels := 3
  colorsPrecomp := none
  background := fun ch => ch + 1 / 4
  depthBits := fun _ => 0
  means2D := fun _ => (8, 8)
  radii := fun _ => 0
  tilesTouched := fun _ => 0
  rgb := fun _ _ => 1
  alphaAt := fun _ _ => 1 / 2
  initKV := fun _ => (0, 0)

/-- C7, witness. -/
theorem c7_zero_instances_background_witness :
    ∃ out, (forwardRun culledParams).2 = .ok out
      ∧ out.R = 0
      ∧ (∀ t, out.ranges t = (0, 0))
      ∧ (∀ pix ch, out.color pix ch = culledParams.background ch) :=
  c7_zero_instances_background culledParams (by decide) (by decide) (by decide)

/-- C9: `backward` is a pure replay sequencer.  Its gradients are a
function of the saved state views, the camera/primitive parameters and the
pixel gradients alone; in particular the binning buffer is read only
through the sorted point list, so two calls whose binning views agree on
`pointList` — however much the sorted-key and unsorted scratch arrays
differ — produce identical gradient outputs.  Its host trace only
reconstructs the three state views and invokes the two backward stages:
it performs no scan, no expansion and no sort. -/
theorem c9_backward_pure_replay {σ τ : Type}
    (renderB : (Nat → Nat × Nat) → (Nat → Nat) → (Nat → Nat → ℚ) →
      (Nat → ℚ × ℚ) → (Nat → ℚ × ℚ × ℚ × ℚ) → (Nat × Nat → ℚ) →
      (Nat × Nat → Nat) → (Nat × Nat → Nat → ℚ) → σ)
    (preprocB : σ → (Nat → ℚ) → (Nat → Int) → (Nat → Bool) → τ)
    (geom : GeomView) (b1 b2 : BinningView) (img : ImgView) (q : BwdParams)
    (hpl : b1.pointList = b2.pointList) :
    backwardRun renderB preprocB geom b1 img q
      = backwardRun renderB preprocB geom b2 img q
    ∧ backwardEvents = [Ev.carveGeom, Ev.carveBinning, Ev.carveImage,
        Ev.devRenderBwd, Ev.devPreprocessBwd]
    ∧ Ev.devSort ∉ backwardEvents
    ∧ Ev.devDuplicate ∉ backwardEvents
    ∧ Ev.devScan ∉ backwardEvents := by
  refine ⟨?_, rfl, by decide, by decide, by decide⟩
  unfold backwardRun
  rw [hpl]

/-- C9, witness: two binning views sharing the point list but with
different key arrays give byte-identical gradients. -/
theorem c9_backward_pure_replay_witness :
    backwardRun (fun _ pl _ _ _ _ _ _ => (pl 0 : ℚ)) (fun s _ _ _ => s)
      ⟨fun _ _ => 0, fun _ => 0, fun _ => false, fun _ => (0, 0),
        fun _ => (0, 0, 0, 0), fun _ => 0⟩
      ⟨fun j => j + 5, fun _ => 0, fun _ => 0, fun _ => 0⟩
      ⟨fun _ => 0, fun _ => 0, fun _ => (0, 0)⟩
      ⟨1, 1, 16, 16, none, none, none, fun _ _ => 0⟩
    = backwardRun (fun _ pl _ _ _ _ _ _ => (pl 0 : ℚ)) (fun s _ _ _ => s)
      ⟨fun _ _ => 0, fun _ => 0, fun _ => false, fun _ => (0, 0),
        fun _ => (0, 0, 0, 0), fun _ => 0⟩
      ⟨fun j => j + 5, fun _ => 1, fun _ => 2, fun _ => 3⟩
      ⟨fun _ => 0, fun _ => 0, fun _ => (0, 0)⟩
      ⟨1, 1, 16, 16, none, none, none, fun _ _ => 0⟩
    ∧ Ev.devSort ∉ backwardEvents :=
  ⟨(c9_backward_pure_replay (fun _ pl _ _ _ _ _ _ => (pl 0 : ℚ)) (fun s _ _ _ => s)
      ⟨fun _ _ => 0, fun _ => 0, fun _ => false, fun _ => (0, 0),
        fun _ => (0, 0, 0, 0), fun _ => 0⟩
      ⟨fun j => j + 5, fun _ => 0, fun _ => 0, fun _ => 0⟩
      ⟨fun j => j + 5, fun _ => 1, fun _ => 2, fun _ => 3⟩
      ⟨fun _ => 0, fun _ => 0, fun _ => (0, 0)⟩
      ⟨1, 1, 16, 16, none, none, none, fun _ _ => 0⟩ rfl).1,
   (c9_backward_pure_replay (fun _ pl _ _ _ _ _ _ => (pl 0 : ℚ)) (fun s _ _ _ => s)
      ⟨fun _ _ => 0, fun _ => 0, fun _ => false, fun _ => (0, 0),
        fun _ => (0, 0, 0, 0), fun _ => 0⟩
      ⟨fun j => j + 5, fun _ => 0, fun _ => 0, fun _ => 0⟩
      ⟨fun j => j + 5, fun _ => 1, fun _ => 2, fun _ => 3⟩
      ⟨fun _ => 0, fun _ => 0, fun _ => (0, 0)⟩
      ⟨1, 1, 16, 16, none, none, none, fun _ _ => 0⟩ rfl).2.2.1⟩

/-! ## Lemmas: instance expansion closed form (C3) -/

lemma foldl_flatMap {α β γ : Type} (f : γ → β → γ) (g : α → List β) :
    ∀ (l : List α) (b : γ),
      (l.flatMap g).foldl f b = l.foldl (fun acc a => (g a).foldl f acc) b := by
  intro l
  induction l with
  | nil => intro b; rfl
  | cons a l ih =>
    intro b
    simp only [List.flatMap_cons, List.foldl_append, List.foldl_cons, ih]

lemma counterFold {α : Type} (k : α → Nat) (i : Nat) :
    ∀ (l : List α) (off : Nat) (acc : List (Nat × Nat × Nat)),
      l.foldl (fun st it => (st.1 + 1, st.2 ++ [(st.1, k it, i)])) (off, acc)
        = (off + l.length,
           acc ++ (l.enumFrom off).map (fun p => (p.1, k p.2, i))) := by
  intro l
  induction l with
  | nil => intro off acc; simp
  | cons a l ih =>
    intro off acc
    simp only [List.foldl_cons, ih, List.enumFrom, List.map_cons,
      List.length_cons, List.append_assoc, List.singleton_append]
    rw [show off + 1 + l.length = off + (l.length + 1) from by omega]

lemma dupWrites_nonpos {pts : Nat → ℚ × ℚ} {depths : Nat → Nat}
    {offsets : Nat → Nat} {radii : Nat → Int} {g : Nat × Nat} {i : Nat}
    (h : radii i ≤ 0) : dupWrites pts depths offsets radii g i = [] := by
  unfold dupWrites
  rw [if_neg (by omega)]

/-- Closed form of one `duplicateWithKeys` thread: the write list
enumerates the rectangle's tiles with consecutive positions from the
start offset. -/
lemma dupWrites_pos {pts : Nat → ℚ × ℚ} {depths : Nat → Nat}
    {offsets : Nat → Nat} {radii : Nat → Int} {g : Nat × Nat} {i : Nat}
    (h : 0 < radii i) :
    dupWrites pts depths offsets radii g i
      = ((rectTiles (getRect (pts i) (radii i) g)).enumFrom
          (if i = 0 then 0 else offsets (i - 1))).map
          (fun p => (p.1, packKey g.1 p.2 (depths i), i)) := by
  unfold dupWrites
  rw [if_pos h]
  dsimp only
  rw [show (fun (st : Nat × List (Nat × Nat × Nat)) dy =>
        (List.range ((getRect (pts i) (radii i) g).2.1
            - (getRect (pts i) (radii i) g).1.1)).foldl
          (fun st2 dx =>
            (st2.1 + 1, st2.2 ++ [(st2.1,
              packKey g.1 ((getRect (pts i) (radii i) g).1.1 + dx,
                (getRect (pts i) (radii i) g).1.2 + dy) (depths i), i)])) st)
      = (fun st dy =>
        ((List.range ((getRect (pts i) (radii i) g).2.1
            - (getRect (pts i) (radii i) g).1.1)).map
          (fun dx => ((getRect (pts i) (radii i) g).1.1 + dx,
            (getRect (pts i) (radii i) g).1.2 + dy))).foldl
          (fun st2 xy =>
            (st2.1 + 1, st2.2 ++ [(st2.1, packKey g.1 xy (depths i), i)])) st)
    from by
      funext st dy
      rw [List.foldl_map]]
  rw [← foldl_flatMap
      (fun (st2 : Nat × List (Nat × Nat × Nat)) (xy : Nat × Nat) =>
        (st2.1 + 1, st2.2 ++ [(st2.1, packKey g.1 xy (depths i), i)]))
      (fun dy => ((List.range ((getRect (pts i) (radii i) g).2.1
          - (getRect (pts i) (radii i) g).1.1)).map
        (fun dx => ((getRect (pts i) (radii i) g).1.1 + dx,
          (getRect (pts i) (radii i) g).1.2 + dy))))]
  rw [show ((List.range ((getRect (pts i) (radii i) g).2.2
        - (getRect (pts i) (radii i) g).1.2)).flatMap
      (fun dy => ((List.range ((getRect (pts i) (radii i) g).2.1
          - (getRect (pts i) (radii i) g).1.1)).map
        (fun dx => ((getRect (pts i) (radii i) g).1.1 + dx,
          (getRect (pts i) (radii i) g).1.2 + dy)))))
      = rectTiles (getRect (pts i) (radii i) g) from rfl]
  rw [counterFold (fun xy => packKey g.1 xy (depths i)) i]
  simp

/-- C3: during instance expansion, a primitive `i` with radius > 0 writes
exactly one key/value pair per tile of its clamped screen bounding
rectangle, at consecutive increasing offsets starting at `offsets[i-1]`
(0 for i = 0), with key `(tile << 32) | depth-bits` and value `i`; a
primitive with radius ≤ 0 writes nothing. -/
theorem c3_instance_expansion (pts : Nat → ℚ × ℚ) (depths : Nat → Nat)
    (offsets : Nat → Nat) (radii : Nat → Int) (g : Nat × Nat) (i : Nat) :
    (radii i ≤ 0 → dupWrites pts depths offsets radii g i = [])
    ∧ (0 < radii i → dupWrites pts depths offsets radii g i
        = ((rectTiles (getRect (pts i) (radii i) g)).enumFrom
            (if i = 0 then 0 else offsets (i - 1))).map
            (fun p => (p.1, packKey g.1 p.2 (depths i), i))) :=
  ⟨fun h => dupWrites_nonpos h, fun h => dupWrites_pos h⟩

/-- C3, witness: a culled primitive writes nothing; a radius-1 primitive
at pixel (8, 8) of a 2×2-tile grid writes its rectangle's key/value pairs
at consecutive offsets from its start offset. -/
theorem c3_instance_expansion_witness :
    dupWrites (fun _ => (8, 8)) (fun _ => 42) (fun _ => 0) (fun _ => 0) (2, 2) 0 = []
    ∧ dupWrites (fun _ => (8, 8)) (fun _ => 42) (fun _ => 0) (fun _ => 1) (2, 2) 0
        = ((rectTiles (getRect (8, 8) 1 (2, 2))).enumFrom 0).map
            (fun p => (p.1, packKey 2 p.2 42, 0)) :=
  ⟨(c3_instance_expansion (fun _ => (8, 8)) (fun _ => 42) (fun _ => 0)
      (fun _ => 0) (2, 2) 0).1 (by decide),
   (c3_instance_expansion (fun _ => (8, 8)) (fun _ => 42) (fun _ => 0)
      (fun _ => 1) (2, 2) 0).2 (by decide)⟩

/-! ## Lemmas: tile range resolver (C2) -/

/-- Number of instances in the sorted list whose tile is `t`. -/
def tileCnt (L : Nat) (keys : Nat → Nat) (t : Nat) : Nat :=
  ((Finset.range L).filter fun i => tileOf (keys i) = t).card

/-- Number of instances in the sorted list whose tile is below `t`. -/
def tileLow (L : Nat) (keys : Nat → Nat) (t : Nat) : Nat :=
  ((Finset.range L).filter fun i => tileOf (keys i) < t).card

lemma mem_iff_lt_card_of_dc (S : Finset Nat)
    (hdc : ∀ j ∈ S, ∀ i ≤ j, i ∈ S) (j : Nat) : j ∈ S ↔ j < S.card := by
  constructor
  · intro hj
    have hsub : Finset.range (j + 1) ⊆ S := by
      intro x hx
      exact hdc j hj x (Nat.lt_succ_iff.mp (Finset.mem_range.mp hx))
    calc j < j + 1 := Nat.lt_succ_self j
      _ = (Finset.range (j + 1)).card := (Finset.card_range _).symm
      _ ≤ S.card := Finset.card_le_card hsub
  · intro hj
    by_contra hne
    have hsub : S ⊆ Finset.range j := by
      intro x hx
      rw [Finset.mem_range]
      by_contra hxj
      push_neg at hxj
      exact hne (hdc x hx j hxj)
    have hc := Finset.card_le_card hsub
    rw [Finset.card_range] at hc
    omega

/-- With a tile-sorted key list, the instances of tile `t` are exactly the
contiguous index block `[tileLow t, tileLow t + tileCnt t)`. -/
lemma tile_occ {L : Nat} {keys : Nat → Nat}
    (hmono : ∀ i j, i ≤ j → j < L → tileOf (keys i) ≤ tileOf (keys j))
    (t j : Nat) (hj : j < L) :
    tileOf (keys j) = t ↔
      tileLow L keys t ≤ j ∧ j < tileLow L keys t + tileCnt L keys t := by
  have hdclt : ∀ x ∈ (Finset.range L).filter (fun i => tileOf (keys i) < t),
      ∀ i ≤ x, i ∈ (Finset.range L).filter (fun i => tileOf (keys i) < t) := by
    intro x hx i hix
    rw [Finset.mem_filter, Finset.mem_range] at hx ⊢
    exact ⟨by omega, lt_of_le_of_lt (hmono i x hix hx.1) hx.2⟩
  have hdcle : ∀ x ∈ (Finset.range L).filter (fun i => tileOf (keys i) ≤ t),
      ∀ i ≤ x, i ∈ (Finset.range L).filter (fun i => tileOf (keys i) ≤ t) := by
    intro x hx i hix
    rw [Finset.mem_filter, Finset.mem_range] at hx ⊢
    exact ⟨by omega, le_trans (hmono i x hix hx.1) hx.2⟩
  have hcard : ((Finset.range L).filter (fun i => tileOf (keys i) ≤ t)).card
      = tileLow L keys t + tileCnt L keys t := by
    have hsplit : (Finset.range L).filter (fun i => tileOf (keys i) ≤ t)
        = ((Finset.range L).filter (fun i => tileOf (keys i) < t))
          ∪ ((Finset.range L).filter (fun i => tileOf (keys i) = t)) := by
      rw [← Finset.filter_or]
      apply Finset.filter_congr
      intro x _
      simp [le_iff_lt_or_eq]
    rw [hsplit, Finset.card_union_of_disjoint]
    · rfl
    · rw [Finset.disjoint_filter]
      intro x _ hlt heq
      omega
  have hmlt : (j < L ∧ tileOf (keys j) < t) ↔ j < tileLow L keys t := by
    have h := mem_iff_lt_card_of_dc _ hdclt j
    rw [Finset.mem_filter, Finset.mem_range] at h
    exact h
  have hmle : (j < L ∧ tileOf (keys j) ≤ t) ↔
      j < tileLow L keys t + tileCnt L keys t := by
    have h := mem_iff_lt_card_of_dc _ hdcle j
    rw [hcard] at h
    rw [Finset.mem_filter, Finset.mem_range] at h
    exact h
  constructor
  · intro heq
    have h1 : tileLow L keys t ≤ j := by
      by_contra hc
      push_neg at hc
      have := hmlt.mpr hc
      omega
    have h2 : j < tileLow L keys t + tileCnt L keys t :=
      hmle.mp ⟨hj, le_of_eq heq⟩
    exact ⟨h1, h2⟩
  · intro ⟨h1, h2⟩
    have hle : tileOf (keys j) ≤ t := (hmle.mpr h2).2
    have hnlt : ¬ tileOf (keys j) < t := by
      intro hc
      have := hmlt.mp ⟨hj, hc⟩
      omega
    omega

lemma tileLow_add_cnt_le (L : Nat) (keys : Nat → Nat) (t : Nat) :
    tileLow L keys t + tileCnt L keys t ≤ L := by
  have hsplit : (Finset.range L).filter (fun i => tileOf (keys i) ≤ t)
      = ((Finset.range L).filter (fun i => tileOf (keys i) < t))
        ∪ ((Finset.range L).filter (fun i => tileOf (keys i) = t)) := by
    rw [← Finset.filter_or]
    apply Finset.filter_congr
    intro x _
    simp [le_iff_lt_or_eq]
  have hcard : ((Finset.range L).filter (fun i => tileOf (keys i) ≤ t)).card
      = tileLow L keys t + tileCnt L keys t := by
    rw [hsplit, Finset.card_union_of_disjoint]
    · rfl
    · rw [Finset.disjoint_filter]
      intro x _ hlt heq
      omega
  calc tileLow L keys t + tileCnt L keys t
      = ((Finset.range L).filter (fun i => tileOf (keys i) ≤ t)).card := hcard.symm
    _ ≤ (Finset.range L).card := Finset.card_filter_le _ _
    _ = L := Finset.card_range L

lemma tileCnt_pos_of_mem {L : Nat} {keys : Nat → Nat} {j : Nat} (hj : j < L) :
    0 < tileCnt L keys (tileOf (keys j)) := by
  apply Finset.card_pos.mpr
  exact ⟨j, by rw [Finset.mem_filter, Finset.mem_range]; exact ⟨hj, rfl⟩⟩

lemma tileCnt_eq_zero {L : Nat} {keys : Nat → Nat} {t : Nat}
    (h : ∀ i < L, tileOf (keys i) ≠ t) : tileCnt L keys t = 0 := by
  apply Finset.card_eq_zero.mpr
  apply Finset.filter_eq_empty_iff.mpr
  intro x hx
  exact h x (Finset.mem_range.mp hx)

/-- State of the range table after the first `n` threads' pure steps
(no final `idx = L - 1` write): each tile's start is written once its
first instance has been passed, its end once its block has been closed by
a strictly later instance. -/
lemma pureFold_char {L : Nat} {keys : Nat → Nat}
    (hmono : ∀ i j, i ≤ j → j < L → tileOf (keys i) ≤ tileOf (keys j)) :
    ∀ n, n ≤ L → ∀ t,
      (List.range n).foldl (rangeStep keys) (fun _ => (0, 0)) t
        = (if 0 < tileCnt L keys t ∧ tileLow L keys t < n
             then tileLow L keys t else 0,
           if 0 < tileCnt L keys t ∧ tileLow L keys t + tileCnt L keys t < n
             then tileLow L keys t + tileCnt L keys t else 0) := by
  intro n
  induction n with
  | zero =>
    intro _ t
    simp
  | succ n ih =>
    intro hn t
    have hn' : n ≤ L := by omega
    have hcn := (tile_occ hmono (tileOf (keys n)) n (by omega)).mp rfl
    have hcpos : 0 < tileCnt L keys (tileOf (keys n)) :=
      tileCnt_pos_of_mem (by omega)
    rw [List.range_succ, List.foldl_append, List.foldl_cons, List.foldl_nil]
    set pf := (List.range n).foldl (rangeStep keys) (fun _ => (0, 0)) with hpf
    simp only [rangeStep]
    by_cases hn0 : n = 0
    · subst hn0
      rw [if_pos rfl]
      have hpf0 : ∀ u, pf u = (0, 0) := by
        intro u
        rw [hpf]
        rfl
      simp only [setStart, hpf0]
      by_cases htc : t = tileOf (keys 0)
      · subst htc
        rw [if_pos rfl]
        simp only [Prod.mk.injEq]
        split_ifs <;> omega
      · rw [if_neg htc]
        have hne1 : ¬(0 < tileCnt L keys t ∧ tileLow L keys t = 0) := by
          rintro ⟨hpos, hlow⟩
          exact htc ((tile_occ hmono t 0 (by omega)).mpr (by omega)).symm
        simp only [Prod.mk.injEq]
        split_ifs <;> omega
    · rw [if_neg hn0]
      have hpn := (tile_occ hmono (tileOf (keys (n - 1))) (n - 1)
        (by omega)).mp rfl
      have hppos : 0 < tileCnt L keys (tileOf (keys (n - 1))) :=
        tileCnt_pos_of_mem (by omega)
      by_cases hcp : tileOf (keys n) ≠ tileOf (keys (n - 1))
      · rw [if_pos hcp]
        have hlowc : tileLow L keys (tileOf (keys n)) = n := by
          rcases Nat.lt_or_ge (tileLow L keys (tileOf (keys n))) n with hlt | hge
          · exfalso
            have hocc := (tile_occ hmono (tileOf (keys n)) (n - 1)
              (by omega)).mpr (by omega)
            exact hcp hocc.symm
          · omega
        have hendp : tileLow L keys (tileOf (keys (n - 1)))
            + tileCnt L keys (tileOf (keys (n - 1))) = n := by
          rcases Nat.lt_or_ge n (tileLow L keys (tileOf (keys (n - 1)))
              + tileCnt L keys (tileOf (keys (n - 1)))) with hlt | hge
          · exfalso
            have hocc := (tile_occ hmono (tileOf (keys (n - 1))) n
              (by omega)).mpr (by omega)
            exact hcp hocc
          · omega
        simp only [setStart, setEnd]
        by_cases htc : t = tileOf (keys n)
        · subst htc
          rw [if_pos rfl, if_neg hcp]
          simp only [ih hn', Prod.mk.injEq]
          split_ifs <;> omega
        · rw [if_neg htc]
          by_cases htp : t = tileOf (keys (n - 1))
          · subst htp
            rw [if_pos rfl]
            simp only [ih hn', Prod.mk.injEq]
            split_ifs <;> omega
          · rw [if_neg htp]
            have hne1 : ¬(0 < tileCnt L keys t ∧ tileLow L keys t = n) := by
              rintro ⟨hpos, hlow⟩
              exact htc ((tile_occ hmono t n (by omega)).mpr (by omega)).symm
            have hne2 : ¬(0 < tileCnt L keys t
                ∧ tileLow L keys t + tileCnt L keys t = n) := by
              rintro ⟨hpos, hend⟩
              exact htp ((tile_occ hmono t (n - 1) (by omega)).mpr
                (by omega)).symm
            simp only [ih hn', Prod.mk.injEq]
            split_ifs <;> omega
      · rw [if_neg hcp]
        have hcc : tileOf (keys n) = tileOf (keys (n - 1)) := not_not.mp hcp
        have hne1 : ¬(0 < tileCnt L keys t ∧ tileLow L keys t = n) := by
          rintro ⟨hpos, hlow⟩
          have ht : tileOf (keys n) = t :=
            (tile_occ hmono t n (by omega)).mpr (by omega)
          rw [← ht, hcc] at hlow
          omega
        have hne2 : ¬(0 < tileCnt L keys t
            ∧ tileLow L keys t + tileCnt L keys t = n) := by
          rintro ⟨hpos, hend⟩
          have ht : tileOf (keys (n - 1)) = t :=
            (tile_occ hmono t (n - 1) (by omega)).mpr (by omega)
          rw [← ht] at hend
          rw [hcc] at hcn
          omega
        simp only [ih hn', Prod.mk.injEq]
        split_ifs <;> omega

/-- Characterization of the full resolver pass: on a tile-sorted list,
a touched tile's range is exactly its contiguous block in the sorted
list, and an untouched tile keeps the zero-initialized empty range. -/
lemma identifyTileRanges_char {L : Nat} {keys : Nat → Nat}
    (hmono : ∀ i j, i ≤ j → j < L → tileOf (keys i) ≤ tileOf (keys j))
    (t : Nat) :
    identifyTileRanges L keys (fun _ => (0, 0)) t
      = if 0 < tileCnt L keys t
        then (tileLow L keys t, tileLow L keys t + tileCnt L keys t)
        else (0, 0) := by
  rcases Nat.eq_zero_or_pos L with rfl | hL
  · have hz : tileCnt 0 keys t = 0 := by
      simp [tileCnt]
    rw [hz]
    simp [identifyTileRanges]
  · have h1 : List.range L = List.range (L - 1) ++ [L - 1] := by
      conv_lhs => rw [show L = (L - 1) + 1 by omega]
      rw [List.range_succ]
    have hfL : (List.range L).foldl (rangeStep keys) (fun _ => (0, 0))
        = rangeStep keys
            ((List.range (L - 1)).foldl (rangeStep keys) (fun _ => (0, 0)))
            (L - 1) := by
      rw [h1, List.foldl_append, List.foldl_cons, List.foldl_nil]
    have hkey : (List.range (L - 1)).foldl
        (fun r idx =>
          let r1 := rangeStep keys r idx
          if idx = L - 1 then setEnd r1 (tileOf (keys idx)) L else r1)
        (fun _ => (0, 0))
        = (List.range (L - 1)).foldl (rangeStep keys) (fun _ => (0, 0)) := by
      apply List.foldl_ext
      intro r idx hidx
      have hlt := List.mem_range.mp hidx
      dsimp only
      rw [if_neg (show ¬ idx = L - 1 by omega)]
    unfold identifyTileRanges
    rw [h1, List.foldl_append, hkey, List.foldl_cons, List.foldl_nil]
    rw [if_pos rfl, ← hfL]
    have hchar := pureFold_char hmono L (le_refl L)
    have htl := (tile_occ hmono (tileOf (keys (L - 1))) (L - 1) (by omega)).mp rfl
    have htlpos : 0 < tileCnt L keys (tileOf (keys (L - 1))) :=
      tileCnt_pos_of_mem (by omega)
    have htlle := tileLow_add_cnt_le L keys (tileOf (keys (L - 1)))
    have hendtl : tileLow L keys (tileOf (keys (L - 1)))
        + tileCnt L keys (tileOf (keys (L - 1))) = L := by omega
    simp only [setEnd]
    by_cases htc : t = tileOf (keys (L - 1))
    · subst htc
      rw [if_pos rfl]
      simp only [hchar]
      split_ifs <;> simp only [Prod.mk.injEq, true_and] <;> omega
    · rw [if_neg htc]
      have hle := tileLow_add_cnt_le L keys t
      have hne : ¬(0 < tileCnt L keys t
          ∧ tileLow L keys t + tileCnt L keys t = L) := by
        rintro ⟨hpos, hend⟩
        exact htc ((tile_occ hmono t (L - 1) (by omega)).mpr (by omega)).symm
      simp only [hchar, Prod.mk.injEq]
      split_ifs <;> simp <;> omega

/-- C2: after the tile range resolver runs over a tile-sorted instance
list of length `R` on a zero-initialized range table, every tile of the
render grid has `start ≤ end`, the non-empty ranges are pairwise disjoint
and cover `[0, R)` exactly (every index lies in exactly one tile's
range), and every tile touched by no instance keeps the zero-initialized
empty range. -/
theorem c2_tile_range_partition (L T : Nat) (keys : Nat → Nat)
    (hT : ∀ i < L, tileOf (keys i) < T)
    (hmono : ∀ i j, i ≤ j → j < L → tileOf (keys i) ≤ tileOf (keys j)) :
    (∀ t < T, (identifyTileRanges L keys (fun _ => (0, 0)) t).1
        ≤ (identifyTileRanges L keys (fun _ => (0, 0)) t).2)
    ∧ (∀ t < T, (∀ i < L, tileOf (keys i) ≠ t) →
        identifyTileRanges L keys (fun _ => (0, 0)) t = (0, 0))
    ∧ (∀ j < L, ∃ t, t < T
        ∧ (identifyTileRanges L keys (fun _ => (0, 0)) t).1 ≤ j
        ∧ j < (identifyTileRanges L keys (fun _ => (0, 0)) t).2
        ∧ ∀ u, u < T → (identifyTileRanges L keys (fun _ => (0, 0)) u).1 ≤ j
            → j < (identifyTileRanges L keys (fun _ => (0, 0)) u).2 → u = t) := by
  refine ⟨?_, ?_, ?_⟩
  · intro t _
    rw [identifyTileRanges_char hmono t]
    split_ifs <;> simp
  · intro t _ huntouched
    rw [identifyTileRanges_char hmono t, if_neg]
    rw [not_lt, Nat.le_zero, tileCnt_eq_zero huntouched]
  · intro j hj
    refine ⟨tileOf (keys j), hT j hj, ?_, ?_, ?_⟩
    · rw [identifyTileRanges_char hmono,
        if_pos (tileCnt_pos_of_mem hj)]
      exact ((tile_occ hmono (tileOf (keys j)) j hj).mp rfl).1
    · rw [identifyTileRanges_char hmono,
        if_pos (tileCnt_pos_of_mem hj)]
      exact ((tile_occ hmono (tileOf (keys j)) j hj).mp rfl).2
    · intro u _ hu1 hu2
      rw [identifyTileRanges_char hmono u] at hu1 hu2
      rcases Nat.eq_zero_or_pos (tileCnt L keys u) with hz | hpos
      · rw [if_neg (by omega)] at hu2
        simp at hu2
      · rw [if_pos hpos] at hu1 hu2
        exact ((tile_occ hmono u j hj).mpr ⟨hu1, hu2⟩).symm

/-- C2, witness: three sorted instances in tiles 1, 1, 3 of a 4-tile
grid. -/
theorem c2_tile_range_partition_witness :
    (∀ t < 4, (identifyTileRanges 3
        (fun i => (4294967301 :: 4294967303 :: 12884901890 :: []).getD i 0)
        (fun _ => (0, 0)) t).1
      ≤ (identifyTileRanges 3
        (fun i => (4294967301 :: 4294967303 :: 12884901890 :: []).getD i 0)
        (fun _ => (0, 0)) t).2)
    ∧ (∀ t < 4, (∀ i < 3, tileOf
          ((fun i => (4294967301 :: 4294967303 :: 12884901890 :: []).getD i 0) i)
          ≠ t) →
        identifyTileRanges 3
          (fun i => (4294967301 :: 4294967303 :: 12884901890 :: []).getD i 0)
          (fun _ => (0, 0)) t = (0, 0))
    ∧ (∀ j < 3, ∃ t, t < 4
        ∧ (identifyTileRanges 3
            (fun i => (4294967301 :: 4294967303 :: 12884901890 :: []).getD i 0)
            (fun _ => (0, 0)) t).1 ≤ j
        ∧ j < (identifyTileRanges 3
            (fun i => (4294967301 :: 4294967303 :: 12884901890 :: []).getD i 0)
            (fun _ => (0, 0)) t).2
        ∧ ∀ u, u < 4 → (identifyTileRanges 3
            (fun i => (4294967301 :: 4294967303 :: 12884901890 :: []).getD i 0)
            (fun _ => (0, 0)) u).1 ≤ j
          → j < (identifyTileRanges 3
            (fun i => (4294967301 :: 4294967303 :: 12884901890 :: []).getD i 0)
            (fun _ => (0, 0)) u).2 → u = t) :=
  c2_tile_range_partition 3 4
    (fun i => (4294967301 :: 4294967303 :: 12884901890 :: []).getD i 0)
    (by decide)
    (fun i j hij hj =>
      (by decide : ∀ j, j < 3 → ∀ i, i ≤ j →
        tileOf ((fun i =>
          (4294967301 :: 4294967303 :: 12884901890 :: []).getD i 0) i)
        ≤ tileOf ((fun i =>
          (4294967301 :: 4294967303 :: 12884901890 :: []).getD i 0) j))
        j hj i hij)

/-! ## Lemmas: key arithmetic and write coverage (C1) -/

lemma packKey_eq (gx : Nat) (xy : Nat × Nat) (db : Nat) :
    packKey gx xy db
      = 2 ^ 32 * ((xy.2 * gx + xy.1) % 2 ^ 32) + db % 2 ^ 32 := by
  unfold packKey
  rw [Nat.shiftLeft_eq, Nat.mul_comm]
  exact (Nat.mul_add_lt_is_or (Nat.mod_lt _ (by norm_num)) _).symm

lemma packKey_div (gx : Nat) (xy : Nat × Nat) (db : Nat) :
    packKey gx xy db / 2 ^ 32 = (xy.2 * gx + xy.1) % 2 ^ 32 := by
  rw [packKey_eq]
  omega

lemma packKey_mod (gx : Nat) (xy : Nat × Nat) (db : Nat) :
    packKey gx xy db % 2 ^ 32 = db % 2 ^ 32 := by
  rw [packKey_eq]
  omega

lemma tileOf_eq_div (key : Nat) : tileOf key = key / 2 ^ 32 := by
  unfold tileOf
  rw [Nat.shiftRight_eq_div_pow]

lemma getRect_le (p : ℚ × ℚ) (r : Int) (g : Nat × Nat) :
    (getRect p r g).2.1 ≤ g.1 ∧ (getRect p r g).2.2 ≤ g.2 := by
  unfold getRect
  exact ⟨Int.toNat_le.mpr (min_le_left _ _), Int.toNat_le.mpr (min_le_left _ _)⟩

lemma rectTiles_mem {rect : (Nat × Nat) × (Nat × Nat)} {xy : Nat × Nat}
    (h : xy ∈ rectTiles rect) :
    rect.1.1 ≤ xy.1 ∧ xy.1 < rect.2.1 ∧ rect.1.2 ≤ xy.2 ∧ xy.2 < rect.2.2 := by
  unfold rectTiles at h
  simp only [List.mem_flatMap, List.mem_map, List.mem_range] at h
  obtain ⟨dy, hdy, dx, hdx, rfl⟩ := h
  dsimp only
  omega

lemma mem_enumFrom_of_lt {α : Type} :
    ∀ (l : List α) (off j : Nat) (hj : j < l.length),
      (off + j, l.get ⟨j, hj⟩) ∈ l.enumFrom off := by
  intro l
  induction l with
  | nil => intro off j hj; simp at hj
  | cons a l ih =>
    intro off j hj
    cases j with
    | zero => simp [List.enumFrom]
    | succ j =>
      have hj' : j < l.length := by simpa using hj
      have hmem := ih (off + 1) j hj'
      rw [show off + (j + 1) = off + 1 + j by omega]
      exact List.mem_cons_of_mem _ hmem

lemma applyWrites_not_mem {ws : List (Nat × Nat × Nat)} {p : Nat} :
    ∀ (a0 : Nat → Nat × Nat), (∀ w ∈ ws, w.1 ≠ p) →
      applyWrites a0 ws p = a0 p := by
  induction ws with
  | nil => intro a0 _; rfl
  | cons w ws ih =>
    intro a0 h
    unfold applyWrites
    rw [List.foldl_cons]
    have hstep := ih (fun q => if q = w.1 then (w.2.1, w.2.2) else a0 q)
      (fun x hx => h x (List.mem_cons_of_mem w hx))
    unfold applyWrites at hstep
    rw [hstep]
    exact if_neg (Ne.symm (h w (List.mem_cons_self w ws)))

lemma applyWrites_mem {ws : List (Nat × Nat × Nat)} {p : Nat} :
    ∀ (a0 : Nat → Nat × Nat), (∃ w ∈ ws, w.1 = p) →
      ∃ w ∈ ws, w.1 = p ∧ applyWrites a0 ws p = (w.2.1, w.2.2) := by
  induction ws with
  | nil => intro a0 h; simp at h
  | cons w ws ih =>
    intro a0 h
    by_cases hmem : ∃ w' ∈ ws, w'.1 = p
    · obtain ⟨w', hw', hp', heq⟩ :=
        ih (fun q => if q = w.1 then (w.2.1, w.2.2) else a0 q) hmem
      exact ⟨w', List.mem_cons_of_mem w hw', hp', heq⟩
    · obtain ⟨w0, hw0, hw0p⟩ := h
      rcases List.mem_cons.mp hw0 with rfl | hin
      · refine ⟨w0, List.mem_cons_self w0 ws, hw0p, ?_⟩
        push_neg at hmem
        have hnone : ∀ x ∈ ws, x.1 ≠ p := hmem
        unfold applyWrites
        rw [List.foldl_cons]
        have hstep := applyWrites_not_mem
          (fun q => if q = w0.1 then (w0.2.1, w0.2.2) else a0 q) hnone
        unfold applyWrites at hstep
        rw [hstep]
        exact if_pos hw0p.symm
      · exact absurd ⟨w0, hin, hw0p⟩ hmem

lemma sum_coverage (f : Nat → Nat) :
    ∀ (P p : Nat), p < ((List.range P).map f).sum →
      ∃ i < P, ((List.range i).map f).sum ≤ p
        ∧ p < ((List.range (i + 1)).map f).sum := by
  intro P
  induction P with
  | zero => intro p hp; simp at hp
  | succ P ih =>
    intro p hp
    by_cases hlt : p < ((List.range P).map f).sum
    · obtain ⟨i, hi, h1, h2⟩ := ih p hlt
      exact ⟨i, by omega, h1, h2⟩
    · refine ⟨P, by omega, by omega, hp⟩

/-- Every write emitted by any `duplicateWithKeys` thread carries a key
whose tile field lies inside the grid. -/
lemma dupWrites_key_bound {pts : Nat → ℚ × ℚ} {depths : Nat → Nat}
    {offsets : Nat → Nat} {radii : Nat → Int} {g : Nat × Nat} {i : Nat}
    (hgrid : g.1 * g.2 < 2 ^ 32) {w : Nat × Nat × Nat}
    (hw : w ∈ dupWrites pts depths offsets radii g i) :
    tileOf w.2.1 < g.1 * g.2 := by
  by_cases h : 0 < radii i
  case neg =>
    rw [dupWrites_nonpos (by omega)] at hw
    simp at hw
  rw [dupWrites_pos h] at hw
  simp only [List.mem_map] at hw
  obtain ⟨p, hp, rfl⟩ := hw
  have hmem : p.2 ∈ rectTiles (getRect (pts i) (radii i) g) := by
    have hm := List.mem_map_of_mem Prod.snd hp
    rwa [List.enumFrom_map_snd] at hm
  have hb := rectTiles_mem hmem
  have hgle := getRect_le (pts i) (radii i) g
  dsimp only
  rw [tileOf_eq_div, packKey_div]
  have hxy : p.2.2 * g.1 + p.2.1 < g.1 * g.2 := by
    have h1 : p.2.1 < g.1 := by omega
    have h2 : p.2.2 < g.2 := by omega
    calc p.2.2 * g.1 + p.2.1 < p.2.2 * g.1 + g.1 := by omega
      _ = (p.2.2 + 1) * g.1 := by ring
      _ ≤ g.2 * g.1 := Nat.mul_le_mul_right _ (by omega)
      _ = g.1 * g.2 := Nat.mul_comm _ _
  rw [Nat.mod_eq_of_lt (by omega)]
  exact hxy

/-- Under the upstream touch-count invariant, every cell of the unsorted
instance array read by the sort holds a written key, so its tile field
lies inside the grid. -/
lemma forwardOut_key_bound (q : FwdParams)
    (hgrid : q.grid.1 * q.grid.2 < 2 ^ 32)
    (hsum : ((List.range q.P).map q.tilesTouched).sum < 2 ^ 32)
    (hcons : ∀ i < q.P,
      (0 < q.radii i → q.tilesTouched i
        = (rectTiles (getRect (q.means2D i) (q.radii i) q.grid)).length)
      ∧ (¬ 0 < q.radii i → q.tilesTouched i = 0)) :
    ∀ kv ∈ (forwardOut q).unsorted, tileOf kv.1 < q.grid.1 * q.grid.2 := by
  intro kv hkv
  have hun : (forwardOut q).unsorted
      = (List.range ((forwardOut q).R)).map
          (applyWrites q.initKV ((List.range q.P).flatMap
            (dupWrites q.means2D q.depthBits
              (fun j => (inclusiveSum ((List.range q.P).map q.tilesTouched)).getD j 0)
              q.radii q.grid))) := rfl
  rw [hun] at hkv
  obtain ⟨p, hp, rfl⟩ := List.mem_map.mp hkv
  rw [List.mem_range] at hp
  have hRle : (forwardOut q).R ≤ ((List.range q.P).map q.tilesTouched).sum := by
    rcases Nat.eq_zero_or_pos q.P with hP0 | hP1
    · have hR0 : (forwardOut q).R
          = (inclusiveSum ((List.range q.P).map q.tilesTouched)).getD (q.P - 1) 0 :=
        rfl
      rw [hP0] at hR0
      simp [inclusiveSum, inclusiveSumFrom] at hR0
      omega
    · have hR0 : (forwardOut q).R
          = (inclusiveSum ((List.range q.P).map q.tilesTouched)).getD (q.P - 1) 0 :=
        rfl
      rw [inclusiveSum_getD _ _ (by simp [inclusiveSum_counts_length]; omega) hsum,
        Nat.sub_add_cancel hP1, ← List.map_take, List.take_range, Nat.min_self]
        at hR0
      omega
  obtain ⟨i, hiP, hSi, hSi1⟩ := sum_coverage q.tilesTouched q.P p (by omega)
  have hsucc : ((List.range (i + 1)).map q.tilesTouched).sum
      = ((List.range i).map q.tilesTouched).sum + q.tilesTouched i := by
    rw [List.range_succ, List.map_append, List.sum_append]
    simp
  have hrad : 0 < q.radii i := by
    by_contra hc
    have h0 := (hcons i hiP).2 hc
    omega
  have hlen : (rectTiles (getRect (q.means2D i) (q.radii i) q.grid)).length
      = q.tilesTouched i := ((hcons i hiP).1 hrad).symm
  have hoff : (if i = 0 then 0
      else (inclusiveSum ((List.range q.P).map q.tilesTouched)).getD (i - 1) 0)
      = ((List.range i).map q.tilesTouched).sum := by
    by_cases hi0 : i = 0
    · subst hi0
      simp
    · rw [if_neg hi0,
        inclusiveSum_getD _ _ (by simp [inclusiveSum_counts_length]; omega) hsum,
        Nat.sub_add_cancel (by omega), ← List.map_take, List.take_range,
        Nat.min_eq_left (by omega)]
  have hj : p - ((List.range i).map q.tilesTouched).sum
      < (rectTiles (getRect (q.means2D i) (q.radii i) q.grid)).length := by
    omega
  have hwmem : ((if i = 0 then 0
        else (inclusiveSum ((List.range q.P).map q.tilesTouched)).getD (i - 1) 0)
          + (p - ((List.range i).map q.tilesTouched).sum),
      packKey q.grid.1
        ((rectTiles (getRect (q.means2D i) (q.radii i) q.grid)).get
          ⟨p - ((List.range i).map q.tilesTouched).sum, hj⟩)
        (q.depthBits i), i)
      ∈ dupWrites q.means2D q.depthBits
          (fun j => (inclusiveSum ((List.range q.P).map q.tilesTouched)).getD j 0)
          q.radii q.grid i := by
    rw [dupWrites_pos hrad]
    exact List.mem_map_of_mem _ (mem_enumFrom_of_lt _ _ _ hj)
  have hex : ∃ w ∈ (List.range q.P).flatMap
      (dupWrites q.means2D q.depthBits
        (fun j => (inclusiveSum ((List.range q.P).map q.tilesTouched)).getD j 0)
        q.radii q.grid), w.1 = p := by
    refine ⟨_, List.mem_flatMap.mpr ⟨i, List.mem_range.mpr hiP, hwmem⟩, ?_⟩
    dsimp only
    rw [hoff]
    omega
  obtain ⟨w, hwW, hwp, heq⟩ := applyWrites_mem q.initKV hex
  rw [heq]
  obtain ⟨i', _, hwi'⟩ := List.mem_flatMap.mp hwW
  exact dupWrites_key_bound hgrid hwi'

lemma keyLE_trans (b : Nat) : ∀ x y z : Nat × Nat,
    keyLE b x y = true → keyLE b y z = true → keyLE b x z = true := by
  intro x y z hxy hyz
  simp only [keyLE, decide_eq_true_eq] at hxy hyz ⊢
  omega

lemma keyLE_total (b : Nat) : ∀ x y : Nat × Nat,
    (keyLE b x y || keyLE b y x) = true := by
  intro x y
  simp only [keyLE, Bool.or_eq_true, decide_eq_true_eq]
  omega

/-- C1: after sorting, the tile field (high 32 bits) of the instance key
list is non-decreasing across the whole list, and within any single
tile's range the depth field (low 32 bits) is non-decreasing — hence,
with the IEEE precondition (non-negative depths order like their bit
patterns, hypothesis `hdval`), the numeric depth is non-decreasing within
each tile. -/
theorem c1_sorted_tile_then_depth (q : FwdParams) (dval : Nat → ℚ)
    (hch : ¬(q.numChannels ≠ 3 ∧ q.colorsPrecomp.isNone))
    (hP : 1 ≤ q.P)
    (hgrid : q.grid.1 * q.grid.2 < 2 ^ 32)
    (hsum : ((List.range q.P).map q.tilesTouched).sum < 2 ^ 32)
    (hcons : ∀ i < q.P,
      (0 < q.radii i → q.tilesTouched i
        = (rectTiles (getRect (q.means2D i) (q.radii i) q.grid)).length)
      ∧ (¬ 0 < q.radii i → q.tilesTouched i = 0))
    (hdval : ∀ a b : Nat, a < 2 ^ 32 → b < 2 ^ 32 → (dval a ≤ dval b ↔ a ≤ b)) :
    ∃ out, (forwardRun q).2 = .ok out ∧
      ∀ (i j : Nat) (hi : i < out.sorted.length) (hj : j < out.sorted.length),
        i ≤ j →
        tileOf (out.sorted.get ⟨i, hi⟩).1 ≤ tileOf (out.sorted.get ⟨j, hj⟩).1
        ∧ (tileOf (out.sorted.get ⟨i, hi⟩).1 = tileOf (out.sorted.get ⟨j, hj⟩).1
          → depthBitsOf (out.sorted.get ⟨i, hi⟩).1
              ≤ depthBitsOf (out.sorted.get ⟨j, hj⟩).1
            ∧ dval (depthBitsOf (out.sorted.get ⟨i, hi⟩).1)
              ≤ dval (depthBitsOf (out.sorted.get ⟨j, hj⟩).1)) := by
  refine ⟨forwardOut q, forwardRun_ok q hch hP, ?_⟩
  have hS : (forwardOut q).sorted
      = sortPairs (sortBits q.grid) ((forwardOut q).unsorted) := rfl
  have hbound := forwardOut_key_bound q hgrid hsum hcons
  have hboundS : ∀ kv ∈ (forwardOut q).sorted,
      tileOf kv.1 < q.grid.1 * q.grid.2 := by
    intro kv hkv
    apply hbound
    rw [hS] at hkv
    exact (List.mergeSort_perm _ _).mem_iff.mp hkv
  have hklt : ∀ kv ∈ (forwardOut q).sorted, kv.1 < 2 ^ sortBits q.grid := by
    intro kv hkv
    have hb := hboundS kv hkv
    have h0 : 0 < q.grid.1 * q.grid.2 := by omega
    have hsize : getHigherMsb ((q.grid.1 * q.grid.2) % 2 ^ 32)
        = Nat.size (q.grid.1 * q.grid.2) := by
      rw [Nat.mod_eq_of_lt hgrid]
      exact getHigherMsb_eq_size h0 hgrid
    have hgg : q.grid.1 * q.grid.2 < 2 ^ Nat.size (q.grid.1 * q.grid.2) :=
      Nat.lt_size_self _
    rw [tileOf_eq_div] at hb
    have hmlt : kv.1 % 2 ^ 32 < 2 ^ 32 := Nat.mod_lt _ (by norm_num)
    have hdm := Nat.div_add_mod kv.1 (2 ^ 32)
    have hkey : kv.1 < 2 ^ 32 * (q.grid.1 * q.grid.2) := by
      calc kv.1 = 2 ^ 32 * (kv.1 / 2 ^ 32) + kv.1 % 2 ^ 32 := hdm.symm
        _ < 2 ^ 32 * (kv.1 / 2 ^ 32) + 2 ^ 32 := by omega
        _ = 2 ^ 32 * (kv.1 / 2 ^ 32 + 1) := by ring
        _ ≤ 2 ^ 32 * (q.grid.1 * q.grid.2) := Nat.mul_le_mul_left _ (by omega)
    calc kv.1 < 2 ^ 32 * (q.grid.1 * q.grid.2) := hkey
      _ ≤ 2 ^ 32 * 2 ^ Nat.size (q.grid.1 * q.grid.2) :=
        Nat.mul_le_mul_left _ (by omega)
      _ = 2 ^ (32 + Nat.size (q.grid.1 * q.grid.2)) := by rw [pow_add]
      _ = 2 ^ sortBits q.grid := by rw [sortBits, hsize]
  have hpw : (forwardOut q).sorted.Pairwise
      (fun x y => keyLE (sortBits q.grid) x y = true) := by
    rw [hS]
    exact List.sorted_mergeSort (keyLE_trans (sortBits q.grid))
      (keyLE_total (sortBits q.grid)) _
  intro i j hi hj hij
  rcases Nat.eq_or_lt_of_le hij with rfl | hlt
  · exact ⟨le_refl _, fun _ => ⟨le_refl _, le_refl _⟩⟩
  · have hrel := List.pairwise_iff_get.mp hpw ⟨i, hi⟩ ⟨j, hj⟩ hlt
    have hkle : ((forwardOut q).sorted.get ⟨i, hi⟩).1 % 2 ^ sortBits q.grid
        ≤ ((forwardOut q).sorted.get ⟨j, hj⟩).1 % 2 ^ sortBits q.grid := by
      simpa [keyLE, decide_eq_true_eq] using hrel
    rw [Nat.mod_eq_of_lt (hklt _ (List.get_mem _ _ _)),
      Nat.mod_eq_of_lt (hklt _ (List.get_mem _ _ _))] at hkle
    constructor
    · rw [tileOf_eq_div, tileOf_eq_div]
      exact Nat.div_le_div_right hkle
    · intro hteq
      rw [tileOf_eq_div, tileOf_eq_div] at hteq
      have hdm1 := Nat.div_add_mod (((forwardOut q).sorted.get ⟨i, hi⟩).1) (2 ^ 32)
      have hdm2 := Nat.div_add_mod (((forwardOut q).sorted.get ⟨j, hj⟩).1) (2 ^ 32)
      have hble : ((forwardOut q).sorted.get ⟨i, hi⟩).1 % 2 ^ 32
          ≤ ((forwardOut q).sorted.get ⟨j, hj⟩).1 % 2 ^ 32 := by
        omega
      exact ⟨hble, (hdval _ _ (Nat.mod_lt _ (by norm_num))
        (Nat.mod_lt _ (by norm_num))).mpr hble⟩

/-- A consistent 3-channel `forward` input: two radius-1 primitives at
the center of a single-tile 16×16 image, each touching exactly its one
rectangle tile. -/
def twoSplatParams : FwdParams where
  P := 2
  width := 16
  height := 16
  numChannels := 3
  colorsPrecomp := none
  background := fun _ => 0
  depthBits := fun i => 5 + i
  means2D := fun _ => (8, 8)
  radii := fun _ => 1
  tilesTouched := fun _ => 1
  rgb := fun _ _ => 1
  alphaAt := fun _ _ => 1 / 2
  initKV := fun _ => (0, 0)

/-- C1, witness. -/
theorem c1_sorted_tile_then_depth_witness :
    ∃ out, (forwardRun twoSplatParams).2 = .ok out ∧
      ∀ (i j : Nat) (hi : i < out.sorted.length) (hj : j < out.sorted.length),
        i ≤ j →
        tileOf (out.sorted.get ⟨i, hi⟩).1 ≤ tileOf (out.sorted.get ⟨j, hj⟩).1
        ∧ (tileOf (out.sorted.get ⟨i, hi⟩).1 = tileOf (out.sorted.get ⟨j, hj⟩).1
          → depthBitsOf (out.sorted.get ⟨i, hi⟩).1
              ≤ depthBitsOf (out.sorted.get ⟨j, hj⟩).1
            ∧ (fun b => (b : ℚ)) (depthBitsOf (out.sorted.get ⟨i, hi⟩).1)
              ≤ (fun b => (b : ℚ)) (depthBitsOf (out.sorted.get ⟨j, hj⟩).1)) :=
  c1_sorted_tile_then_depth twoSplatParams (fun b => (b : ℚ))
    (by decide) (by decide) (by decide) (by decide)
    (by
      intro i hi
      refine ⟨fun _ => ?_, fun hc => (hc (by decide : (0 : Int) < 1)).elim⟩
      have hrect : getRect (twoSplatParams.means2D i) (twoSplatParams.radii i)
          twoSplatParams.grid = ((0, 0), (1, 1)) := by
        show getRect ((8 : ℚ), (8 : ℚ)) 1 (1, 1) = ((0, 0), (1, 1))
        norm_num [getRect, Prod.ext_iff]
      rw [hrect]
      rfl)
    (fun a b _ _ => Nat.cast_le)

end GaussRaster
